import Mathlib

/-!
Verification of the lane-query and route-reconstruction engine of
src/lyftl5/custom_map_api.py (class CustomMapAPI).

Shallow embedding conventions:
* map coordinates are embedded as integers (`Int`); every comparison the code
  performs on floating-point coordinates is performed here on `Int`;
* `np.linalg.norm` is only ever used by the code as a sort/argmin key, so it is
  embedded as the squared Euclidean distance `sqDist`, which induces exactly
  the same order and the same ties (sqrt is strictly monotone on nonnegatives);
* `np.argsort` is called by the code with its default kind (quicksort),
  which NumPy documents as not stable: the only guaranteed behavior is the
  contract `IsArgsortOf` (a sorting permutation of the indices, with the
  relative order of equal keys unspecified); the executable embedding uses
  `sortByKey`, one admissible implementation of that contract, and any
  statement about the order of equal keys is settled against the contract,
  never against this particular implementation;
* Python dictionaries are embedded as association lists with Python-dict
  iteration order: assigning to a fresh key appends at the end, assigning to an
  existing key updates in place (`upsert`), `del` removes the entry
  (`eraseKey`);
* fallible code (KeyError / IndexError / ValueError raising) is embedded in
  `Except Err`; the unbounded backtracking `while` loop is embedded with
  explicit fuel, running out of fuel is the distinguished error
  `Err.outOfFuel` (we prove reconstruction never produces it).
-/

namespace CustomMapAPI

/-- Lane identifiers are strings (`id_as_str`); the empty string is the
protobuf sentinel for "no connection". -/
abbrev LaneId := String

/-- A 2D position / map coordinate. -/
abbrev Pt := Int × Int

/-- Squared Euclidean distance. The code only uses `np.linalg.norm` as a
sort / argmin key, and squaring preserves order and ties. -/
def sqDist (a b : Pt) : Int := (a.1 - b.1) ^ 2 + (a.2 - b.2) ^ 2

/-- Errors the Python code can raise, plus the fuel marker of the embedded
backtracking loop. -/
inductive Err where
  | keyError
  | indexError
  | valueError
  | outOfFuel
deriving DecidableEq

/-- The lane-level payload of a decoded map element.  Boundary polylines come
from the map element source; the two midpoint lists are the results of the
external interpolation service (out of scope per the spec) for the two
resampling policies the code uses: `INTER_METER` with step 1.0
(`get_closest_lane_midpoints`) and `INTER_ENSURE_LEN` with
`max_points_per_lane` (`get_lane_progress`). -/
structure LaneRec where
  leftCoords : List Pt
  rightCoords : List Pt
  lanesAhead : List LaneId
  adjLeft : LaneId
  adjRight : LaneId
  midpointsMeter : List Pt
  midpointsLen : List Pt
deriving DecidableEq

/-- A decoded map element: a protobuf element always carries a (possibly
default-empty) lane submessage, plus the `is_lane` discriminator. -/
structure Element where
  isLane : Bool
  lane : LaneRec
deriving DecidableEq

/-- An axis-aligned bounding box, the embedding of the 2x2 array
[[x_min, y_min], [x_max, y_max]] built by get_lane_bounds. -/
structure Bounds where
  xmin : Int
  ymin : Int
  xmax : Int
  ymax : Int
deriving DecidableEq

/-- The read-only map snapshot behind a CustomMapAPI instance: the decoded
element list keyed by id (`self.elements` together with `self.ids_to_el`), the
precomputed `bounds_info["lanes"]` table, and the configured retrieval
radius `max_retrieval_distance_m`. -/
structure MapStore where
  elements : List (LaneId × Element)
  boundsIds : List LaneId
  boundsBoxes : List Bounds
  maxLaneDistance : Int
deriving DecidableEq

/-! ## Stable sort by key (embedding of np.argsort) -/

/-- Insert `x` in front of the first element whose key is not smaller,
so an element keeps its place in front of later elements with an equal key. -/
def insertLe {α : Type} (k : α → Int) (x : α) : List α → List α
  | [] => [x]
  | y :: t => if k y < k x then y :: insertLe k x t else x :: y :: t

/-- Insertion sort by an integer key: the executable stand-in for
`np.argsort` applied to an array of norms (the code then indexes the
original array with the resulting permutation, which is the same as sorting
the entries).  The code runs np.argsort with its default kind, which NumPy
documents as not stable, so the program only guarantees the `IsArgsortOf`
contract below; this implementation happens to keep the original order
between equal keys, and no claim about tie order is settled against it. -/
def sortByKey {α : Type} (k : α → Int) : List α → List α
  | [] => []
  | x :: t => insertLe k x (sortByKey k t)

/-- Modelled from the documented contract of np.argsort with its default
kind (quicksort): the result is some permutation of the index range whose
induced key sequence is nondecreasing; the relative order of indices with
equal keys is unspecified, because the default sort is documented as not
stable. -/
def IsArgsortOf (keys : List Int) (perm : List Nat) : Prop :=
  perm.Perm (List.range keys.length) ∧
  (perm.filterMap (fun i => keys[i]?)).Pairwise (fun a b => a ≤ b)

/-- The candidate pairs reordered by an index permutation: the embedding of
`lanes_indices[perm]` followed by `np.take(lanes_ids, lanes_indices)`,
keeping each candidate id together with its distance. -/
def permutedCands (cands : List (LaneId × Int)) (perm : List Nat) :
    List (LaneId × Int) :=
  perm.filterMap (fun i => cands[i]?)

/-! ## Python dict as an association list (insertion-ordered) -/

/-- One frontier entry: lane id mapped to its parent lane id (none for a
seeded initial lane). -/
abbrev Entry := LaneId × Option LaneId

/-- The keys of an association list, in iteration order. -/
def keysOf (l : List Entry) : List LaneId := l.map Prod.fst

/-- Python dict assignment `d[k] = v`: update in place if the key exists,
append at the end otherwise. -/
def upsert : List Entry → LaneId → Option LaneId → List Entry
  | [], k, v => [(k, v)]
  | e :: t, k, v => if e.1 = k then (k, v) :: t else e :: upsert t k v

/-- Python dict deletion `del d[k]`. -/
def eraseKey (l : List Entry) (k : LaneId) : List Entry :=
  l.filter (fun e => e.1 ≠ k)

/-- Python dict lookup `d[k]`: the value at the first (and, with unique keys,
only) entry carrying the key, or none when the key is absent. -/
def lookupKey : List Entry → LaneId → Option (Option LaneId)
  | [], _ => none
  | e :: t, k => if e.1 = k then some e.2 else lookupKey t k

/-! ## LaneStore accessors -/

/-- The `ids_to_el` dict comprehension maps each id to the index of its last
occurrence in `self.elements`; composed with list indexing this resolves an id
to the last element carrying it. -/
def idsToEl (elements : List (LaneId × Element)) (id : LaneId) : Option Element :=
  List.lookup id elements.reverse

/-- Embedding of get_element: `self.elements[self.ids_to_el[element_id]]`;
a missing id raises KeyError. -/
def get_element (m : MapStore) (id : LaneId) : Except Err Element :=
  match idsToEl m.elements id with
  | some el => .ok el
  | none => .error .keyError

/-- Embedding of get_lane: `self.get_element(lane_id).element.lane`. -/
def get_lane (m : MapStore) (id : LaneId) : Except Err LaneRec :=
  (get_element m id).map Element.lane

/-- Minimum of `f` over a nonempty coordinate list (`np.min` over one box
axis). -/
def npMin (f : Pt → Int) (h : Pt) (t : List Pt) : Int :=
  t.foldl (fun acc p => min acc (f p)) (f h)

/-- Maximum of `f` over a nonempty coordinate list (`np.max` over one box
axis). -/
def npMax (f : Pt → Int) (h : Pt) (t : List Pt) : Int :=
  t.foldl (fun acc p => max acc (f p)) (f h)

/-- Embedding of get_lane_bounds: the union of the extents of the left and
right boundary polylines.  The underlying `get_lane_coords` call raises
KeyError on an unknown id, and `np.min` / `np.max` raise ValueError on an
empty polyline. -/
def get_lane_bounds (m : MapStore) (id : LaneId) : Except Err Bounds :=
  match get_element m id with
  | .error e => .error e
  | .ok el =>
    match el.lane.leftCoords, el.lane.rightCoords with
    | lh :: lt, rh :: rt =>
      .ok ⟨min (npMin Prod.fst lh lt) (npMin Prod.fst rh rt),
           min (npMin Prod.snd lh lt) (npMin Prod.snd rh rt),
           max (npMax Prod.fst lh lt) (npMax Prod.fst rh rt),
           max (npMax Prod.snd lh lt) (npMax Prod.snd rh rt)⟩
    | _, _ => .error .valueError

/-- Embedding of in_bounds: strict inequalities on all four box edges. -/
def in_bounds (position : Pt) (bounds : Bounds) : Bool :=
  let xIn := decide (position.1 > bounds.xmin) && decide (position.1 < bounds.xmax)
  let yIn := decide (position.2 > bounds.ymin) && decide (position.2 < bounds.ymax)
  xIn && yIn

/-- Embedding of get_ahead_lanes_ids: the `lanes_ahead` ids whose decoded
string is truthy, i.e. nonempty. -/
def get_ahead_lanes_ids (m : MapStore) (id : LaneId) : Except Err (List LaneId) :=
  (get_lane m id).map (fun lane => lane.lanesAhead.filter (fun s => !s.isEmpty))

/-- Embedding of get_change_lanes_ids: the left / right lane-change ids when
truthy (nonempty). -/
def get_change_lanes_ids (m : MapStore) (id : LaneId) : Except Err (List LaneId) :=
  (get_lane m id).map (fun lane =>
    (if !lane.adjLeft.isEmpty then [lane.adjLeft] else []) ++
    (if !lane.adjRight.isEmpty then [lane.adjRight] else []))

/-- Embedding of get_connected_lanes_ids: ahead ids then change ids. -/
def get_connected_lanes_ids (m : MapStore) (id : LaneId) : Except Err (List LaneId) :=
  match get_ahead_lanes_ids m id with
  | .error e => .error e
  | .ok a =>
    match get_change_lanes_ids m id with
    | .error e => .error e
    | .ok c => .ok (a ++ c)

/-- Inner loop of get_lanes_ids_at over `self.elements`: keep the ids of lane
elements whose bounds strictly contain the position. -/
def lanesAtAux (m : MapStore) (position : Pt) :
    List (LaneId × Element) → Except Err (List LaneId)
  | [] => .ok []
  | (id, el) :: t =>
    if !el.isLane then lanesAtAux m position t
    else
      match get_lane_bounds m id with
      | .error e => .error e
      | .ok b =>
        match lanesAtAux m position t with
        | .error e => .error e
        | .ok rest => .ok (if in_bounds position b then id :: rest else rest)

/-- Embedding of get_lanes_ids_at. -/
def get_lanes_ids_at (m : MapStore) (position : Pt) : Except Err (List LaneId) :=
  lanesAtAux m position m.elements

/-- Embedding of get_closest_lane_midpoints: the interpolated midpoints
(`INTER_METER`, step 1.0 — an external service, its result is the per-lane
`midpointsMeter` data) sorted by distance to the position, nearest first.
`get_lane_as_interpolation` raises KeyError on an unknown id. -/
def get_closest_lane_midpoints (m : MapStore) (position : Pt) (id : LaneId) :
    Except Err (List Pt) :=
  (get_element m id).map (fun el =>
    sortByKey (fun p => sqDist p position) el.lane.midpointsMeter)

/-- Modelled from the spec (SpatialIndex, spec 4.1) and the out-of-scope
l5kit helper `indices_in_bounds` it names: the indices of the boxes that,
expanded by `half_extent` on every side, strictly contain the center. -/
def indices_in_bounds (center : Pt) (boxes : List Bounds) (halfExtent : Int) :
    List Nat :=
  (boxes.enum.filter (fun ib =>
    decide (center.1 > ib.2.xmin - halfExtent) &&
    decide (center.2 > ib.2.ymin - halfExtent) &&
    decide (center.1 < ib.2.xmax + halfExtent) &&
    decide (center.2 < ib.2.ymax + halfExtent))).map Prod.fst

/-- The coarse candidate index set of get_closest_lanes_ids. -/
def candidateIdxs (m : MapStore) (position : Pt) : List Nat :=
  indices_in_bounds position m.boundsBoxes m.maxLaneDistance

/-- The candidate loop of get_closest_lanes_ids: pair each candidate id
(`lanes_ids[lane_idx]`, IndexError when out of range) with the distance to
its closest midpoint (`closest_midpoints[0]`, IndexError when a lane has no
midpoints). -/
def lanesDistancesAux (m : MapStore) (position : Pt) :
    List Nat → Except Err (List (LaneId × Int))
  | [] => .ok []
  | i :: t =>
    match m.boundsIds[i]? with
    | none => .error .indexError
    | some id =>
      match get_closest_lane_midpoints m position id with
      | .error e => .error e
      | .ok [] => .error .indexError
      | .ok (mp :: _) =>
        match lanesDistancesAux m position t with
        | .error e => .error e
        | .ok rest => .ok ((id, sqDist mp position) :: rest)

/-- The candidate id / distance pairs of get_closest_lanes_ids, in coarse
candidate order. -/
def candPairs (m : MapStore) (position : Pt) : Except Err (List (LaneId × Int)) :=
  lanesDistancesAux m position (candidateIdxs m position)

/-- Embedding of get_closest_lanes_ids.  Sorting the enumerated candidate
pairs by distance (via the executable stand-in sortByKey) and projecting
the ids is the embedding of `lanes_indices[np.argsort(lanes_distances)]`
followed by `np.take(lanes_ids, lanes_indices)`; the tie order this picks
is one admissible outcome of the unstable default np.argsort, and claims
about the order of equal distances are stated against IsArgsortOf. -/
def get_closest_lanes_ids (m : MapStore) (position : Pt) :
    Except Err (Option (List LaneId)) :=
  let lanesIndices := candidateIdxs m position
  if lanesIndices = [] then .ok none
  else
    match candPairs m position with
    | .error e => .error e
    | .ok cands =>
      .ok (some ((sortByKey (fun t => t.2.2) cands.enum).map (fun t => t.2.1)))

/-- Embedding of np.linspace(0, 1, n). -/
def linspace01 (n : Nat) : List ℚ :=
  (List.range n).map (fun i : Nat => if n ≤ 1 then 0 else (i : ℚ) / ((n : ℚ) - 1))

/-- Embedding of get_lane_progress: uniform progress values over the
`INTER_ENSURE_LEN` midpoints (external interpolation, per-lane
`midpointsLen` data), permuted by distance to the position, first entry
returned.  Sorting (progress, distance) pairs by distance and taking the
head component is the embedding of `progress[np.argsort(dists)][0]`; any
argsort kind agrees on the head being an index of minimal distance, which
is all C7 uses.  IndexError on an empty midpoint list. -/
def get_lane_progress (m : MapStore) (position : Pt) (id : LaneId) :
    Except Err ℚ :=
  match get_element m id with
  | .error e => .error e
  | .ok el =>
    let midpoints := el.lane.midpointsLen
    let progress := linspace01 midpoints.length
    let pairs := progress.zip (midpoints.map (fun p => sqDist p position))
    match sortByKey (fun pr => pr.2) pairs with
    | [] => .error .indexError
    | pr :: _ => .ok pr.1

/-! ## Route reconstruction (get_route) -/

/-- The frontier of a reconstruction: the two parent-pointer dicts. -/
structure Frontier where
  visited : List Entry
  unvisited : List Entry
deriving DecidableEq

/-- Seeding loop of get_route: every initial lane id enters `unvisited`
with parent none. -/
def seedUnvisited (ids : List LaneId) : List Entry :=
  ids.foldl (fun uv id => upsert uv id none) []

/-- The per-frame candidate filter of get_route: the unvisited lane ids, in
dict order, whose bounds contain the position (bounds lookups may raise). -/
def currentIdsAux (m : MapStore) (position : Pt) :
    List Entry → Except Err (List LaneId)
  | [] => .ok []
  | e :: t =>
    match get_lane_bounds m e.1 with
    | .error err => .error err
    | .ok b =>
      match currentIdsAux m position t with
      | .error err => .error err
      | .ok rest => .ok (if in_bounds position b then e.1 :: rest else rest)

/-- The adjacency-insertion loop of get_route: every connected lane id not in
`visited` is written into `unvisited` with the visiting lane as parent. -/
def insertConn (visited2 : List Entry) (id : LaneId) (uv : List Entry)
    (conn : List LaneId) : List Entry :=
  conn.foldl (fun acc c =>
    if (lookupKey visited2 c).isSome then acc else upsert acc c (some id)) uv

/-- Visiting one lane id in the inner loop of get_route: move it from `unvisited`
to `visited` keeping its parent, then insert its connected lanes.  Looking up
a key absent from `unvisited` or an id absent from the element table
raises KeyError. -/
def visitOne (m : MapStore) (st : Frontier) (id : LaneId) : Except Err Frontier :=
  match lookupKey st.unvisited id with
  | none => .error .keyError
  | some p =>
    let visited2 := upsert st.visited id p
    let unvisited2 := eraseKey st.unvisited id
    match get_connected_lanes_ids m id with
    | .error e => .error e
    | .ok conn => .ok ⟨visited2, insertConn visited2 id unvisited2 conn⟩

/-- The inner loop of a frame: visit the current ids in order. -/
def visitFold (m : MapStore) : List LaneId → Frontier → Except Err Frontier
  | [], st => .ok st
  | id :: t, st =>
    match visitOne m st id with
    | .error e => .error e
    | .ok st2 => visitFold m t st2

/-- One iteration of the frame loop of get_route: compute the current ids from the
unvisited dict, then visit them. -/
def frameStep (m : MapStore) (st : Frontier) (position : Pt) :
    Except Err Frontier :=
  match currentIdsAux m position st.unvisited with
  | .error e => .error e
  | .ok current => visitFold m current st

/-- The whole frame loop over the trajectory frames of index at least 1. -/
def runFrames (m : MapStore) : List Pt → Frontier → Except Err Frontier
  | [], st => .ok st
  | p :: t, st =>
    match frameStep m st p with
    | .error e => .error e
    | .ok st2 => runFrames m t st2

/-- The backtracking `while` loop of get_route with explicit fuel: while no
element of the route is an initial lane, prepend the current lane id and step
to its parent.  Following a parent of `None` (or a lane id missing from
`visited`) is the KeyError the source would raise; exhausted fuel is the
distinguished marker for a loop the source would not exit. -/
def backtrackLoop (visited : List Entry) (initialIds : List LaneId) :
    Nat → List LaneId → Option LaneId → Except Err (List LaneId)
  | 0, _, _ => .error .outOfFuel
  | fuel + 1, route, laneId =>
    if route.any (fun x => initialIds.contains x) then .ok route
    else
      match laneId with
      | none => .error .keyError
      | some lid =>
        match lookupKey visited lid with
        | none => .error .keyError
        | some p => backtrackLoop visited initialIds fuel (lid :: route) p

/-- Final scan of get_route: the first final lane id present in `visited`
selects the destination; its backtrack builds the route; no hit means no
route (none). -/
def scanFinals (visited : List Entry) (initialIds : List LaneId) :
    List LaneId → Except Err (Option (List LaneId))
  | [] => .ok none
  | f :: t =>
    if (lookupKey visited f).isNone then scanFinals visited initialIds t
    else
      match backtrackLoop visited initialIds (visited.length + 1) [] (some f) with
      | .error e => .error e
      | .ok route => .ok (some route)

/-- The initial position of a trajectory, `trajectory[0]`. -/
def initialPositionOf (trajectory : List Pt) : Option Pt := trajectory[0]?

/-- The final position get_route uses, `trajectory[-2]` (the second-to-last
sample). -/
def finalPositionOf (trajectory : List Pt) : Option Pt := trajectory.reverse[1]?

/-- The lanes containing the initial position (IndexError on a trajectory
without one). -/
def initialIdsOf (m : MapStore) (trajectory : List Pt) : Except Err (List LaneId) :=
  match initialPositionOf trajectory with
  | some p => get_lanes_ids_at m p
  | none => .error .indexError

/-- The lanes containing the final (second-to-last) position. -/
def finalIdsOf (m : MapStore) (trajectory : List Pt) : Except Err (List LaneId) :=
  match finalPositionOf trajectory with
  | some p => get_lanes_ids_at m p
  | none => .error .indexError

/-- Embedding of get_route. -/
def get_route (m : MapStore) (trajectory : List Pt) :
    Except Err (Option (List LaneId)) :=
  match initialIdsOf m trajectory with
  | .error e => .error e
  | .ok initialIds =>
    match finalIdsOf m trajectory with
    | .error e => .error e
    | .ok finalIds =>
      match runFrames m (trajectory.drop 1) ⟨[], seedUnvisited initialIds⟩ with
      | .error e => .error e
      | .ok st => scanFinals st.visited initialIds finalIds

/-! ## Specification predicates for the frontier -/

/-- The parent chain inside `visited` is well formed: an entry with parent
none is an initial lane (only seeds carry parent none), and an entry with
parent some q points at the key of a strictly earlier entry (its parent was
visited strictly before it). -/
def ParentOkV (init : List LaneId) (v : List Entry) : Prop :=
  ∀ (i : Nat) (e : Entry), v[i]? = some e →
    (e.2 = none → e.1 ∈ init) ∧
    ∀ q, e.2 = some q → ∃ j, j < i ∧ ∃ e2, v[j]? = some e2 ∧ e2.1 = q

/-- The reconstruction invariant: unique keys on both dicts, disjointness,
a well-formed parent chain in `visited`, and unvisited parents that are
either none on an initial lane or an already visited lane. -/
structure Wf (init : List LaneId) (st : Frontier) : Prop where
  nodupV : (keysOf st.visited).Nodup
  nodupU : (keysOf st.unvisited).Nodup
  disj : ∀ a, a ∈ keysOf st.visited → a ∉ keysOf st.unvisited
  chainV : ParentOkV init st.visited
  parentU : ∀ e ∈ st.unvisited, (e.2 = none → e.1 ∈ init) ∧
    ∀ q, e.2 = some q → q ∈ keysOf st.visited

/-! ## Concrete example map used by the claim witnesses -/

/-- Example lane id A. -/
def laneA : LaneId := "A"

/-- Example lane id B, used as a dangling adjacency reference. -/
def laneB : LaneId := "B"

/-- A single straight lane: edges from x = 0 to x = 10, y between 0 and 4,
three resampled meter midpoints, one progress midpoint. -/
def recA : LaneRec :=
  ⟨[(0, 0), (10, 0)], [(0, 4), (10, 4)], [], "", "",
    [(1, 2), (5, 2), (9, 2)], [(5, 2)]⟩

/-- The element wrapping recA. -/
def elA : Element := ⟨true, recA⟩

/-- A map store holding only lane A. -/
def exStore : MapStore := ⟨[(laneA, elA)], [laneA], [⟨0, 0, 10, 4⟩], 3⟩

/-- Lane A but with an adjacency pointing at the absent lane id B. -/
def recDangling : LaneRec :=
  ⟨[(0, 0), (10, 0)], [(0, 4), (10, 4)], [laneB], "", "", [(5, 2)], [(5, 2)]⟩

/-- A map store holding only lane A, whose lanes-ahead references the
missing element B. -/
def exStoreDangling : MapStore :=
  ⟨[(laneA, ⟨true, recDangling⟩)], [laneA], [⟨0, 0, 10, 4⟩], 3⟩

/-- A lane record shared by the two equidistant lanes of the tie store. -/
def recTie : LaneRec :=
  ⟨[(0, 0), (10, 0)], [(0, 4), (10, 4)], [], "", "", [(5, 2)], [(5, 2)]⟩

/-- A store with two lanes A and B whose nearest resampled midpoints are
equidistant from the query position (5, 0): a tie for the nearest-lane
ranking. -/
def exStoreTie : MapStore :=
  ⟨[(laneA, ⟨true, recTie⟩), (laneB, ⟨true, recTie⟩)],
    [laneA, laneB], [⟨0, 0, 10, 4⟩, ⟨0, 0, 10, 4⟩], 3⟩

/-! ## Association list lemmas -/

theorem keysOf_nil : keysOf [] = [] := rfl

theorem keysOf_cons (e : Entry) (t : List Entry) :
    keysOf (e :: t) = e.1 :: keysOf t := rfl

theorem keysOf_append (l1 l2 : List Entry) :
    keysOf (l1 ++ l2) = keysOf l1 ++ keysOf l2 :=
  List.map_append Prod.fst l1 l2

theorem lookupKey_mem : ∀ {l : List Entry} {k : LaneId} {p : Option LaneId},
    lookupKey l k = some p → (k, p) ∈ l
  | [], _, _, h => by simp [lookupKey] at h
  | (a, b) :: t, k, p, h => by
    by_cases hak : a = k
    · simp only [lookupKey, hak, if_pos] at h
      injection h with h2
      simp [hak, h2]
    · simp only [lookupKey, hak, if_neg, not_false_iff] at h
      exact List.mem_cons_of_mem _ (lookupKey_mem h)

theorem lookupKey_isSome_iff : ∀ {l : List Entry} {k : LaneId},
    (lookupKey l k).isSome ↔ k ∈ keysOf l
  | [], k => by simp [lookupKey, keysOf]
  | (a, b) :: t, k => by
    by_cases hak : a = k
    · simp [lookupKey, hak, keysOf_cons]
    · simp only [lookupKey, hak, if_neg, not_false_iff, keysOf_cons, List.mem_cons]
      rw [lookupKey_isSome_iff]
      constructor
      · exact fun h => Or.inr h
      · rintro (h | h)
        · exact absurd h.symm hak
        · exact h

theorem lookupKey_eq_none_iff {l : List Entry} {k : LaneId} :
    lookupKey l k = none ↔ k ∉ keysOf l := by
  rw [← lookupKey_isSome_iff, Option.isSome_iff_exists]
  constructor
  · rintro h ⟨v, hv⟩
    rw [hv] at h
    exact Option.noConfusion h
  · intro h
    cases hl : lookupKey l k with
    | none => rfl
    | some v => exact absurd ⟨v, hl⟩ h

theorem mem_keysOf_of_lookupKey {l : List Entry} {k : LaneId} {p : Option LaneId}
    (h : lookupKey l k = some p) : k ∈ keysOf l := by
  rw [← lookupKey_isSome_iff, h]
  rfl

theorem upsert_of_not_mem : ∀ {l : List Entry} {k : LaneId} {v : Option LaneId},
    k ∉ keysOf l → upsert l k v = l ++ [(k, v)]
  | [], _, _, _ => rfl
  | e :: t, k, v, h => by
    rw [keysOf_cons, List.mem_cons] at h
    push_neg at h
    rw [upsert, if_neg (fun he => h.1 he.symm), upsert_of_not_mem h.2]
    rfl

theorem mem_keysOf_upsert : ∀ {l : List Entry} {k : LaneId} {v : Option LaneId}
    {a : LaneId}, a ∈ keysOf (upsert l k v) ↔ a ∈ keysOf l ∨ a = k
  | [], k, v, a => by simp [upsert, keysOf]
  | e :: t, k, v, a => by
    rw [upsert]
    split
    · next he =>
      subst he
      simp only [keysOf_cons, List.mem_cons]
      tauto
    · next he =>
      simp only [keysOf_cons, List.mem_cons, mem_keysOf_upsert, or_assoc]

theorem nodup_keysOf_upsert : ∀ {l : List Entry} {k : LaneId} {v : Option LaneId},
    (keysOf l).Nodup → (keysOf (upsert l k v)).Nodup
  | [], k, v, _ => by simp [upsert, keysOf]
  | e :: t, k, v, h => by
    rw [keysOf_cons, List.nodup_cons] at h
    rw [upsert]
    split
    · next he =>
      rw [keysOf_cons, List.nodup_cons]
      exact ⟨he ▸ h.1, h.2⟩
    · next he =>
      rw [keysOf_cons, List.nodup_cons]
      refine ⟨fun hmem => ?_, nodup_keysOf_upsert h.2⟩
      rcases mem_keysOf_upsert.1 hmem with hm | rfl
      · exact h.1 hm
      · exact he rfl

theorem mem_upsert : ∀ {l : List Entry} {k : LaneId} {v : Option LaneId}
    {e : Entry}, e ∈ upsert l k v → e ∈ l ∨ e = (k, v)
  | [], k, v, e, h => by
    simp [upsert] at h
    exact Or.inr h
  | f :: t, k, v, e, h => by
    rw [upsert] at h
    split at h
    · rcases List.mem_cons.1 h with rfl | h2
      · exact Or.inr rfl
      · exact Or.inl (List.mem_cons_of_mem _ h2)
    · rcases List.mem_cons.1 h with rfl | h2
      · exact Or.inl (List.mem_cons_self _ _)
      · rcases mem_upsert h2 with h3 | h3
        · exact Or.inl (List.mem_cons_of_mem _ h3)
        · exact Or.inr h3

theorem eraseKey_sublist (l : List Entry) (k : LaneId) :
    (eraseKey l k).Sublist l :=
  List.filter_sublist l

theorem mem_of_mem_eraseKey {l : List Entry} {k : LaneId} {e : Entry}
    (h : e ∈ eraseKey l k) : e ∈ l :=
  (eraseKey_sublist l k).mem h

theorem keysOf_eraseKey_sublist (l : List Entry) (k : LaneId) :
    (keysOf (eraseKey l k)).Sublist (keysOf l) :=
  (eraseKey_sublist l k).map Prod.fst

theorem nodup_keysOf_eraseKey {l : List Entry} {k : LaneId}
    (h : (keysOf l).Nodup) : (keysOf (eraseKey l k)).Nodup :=
  h.sublist (keysOf_eraseKey_sublist l k)

theorem mem_keysOf_eraseKey {l : List Entry} {k : LaneId} {a : LaneId} :
    a ∈ keysOf (eraseKey l k) ↔ a ∈ keysOf l ∧ a ≠ k := by
  unfold eraseKey keysOf
  rw [List.mem_map]
  constructor
  · rintro ⟨e, he, rfl⟩
    rw [List.mem_filter] at he
    exact ⟨List.mem_map_of_mem _ he.1, by simpa using he.2⟩
  · rintro ⟨ha, hne⟩
    rw [List.mem_map] at ha
    obtain ⟨e, he, rfl⟩ := ha
    exact ⟨e, List.mem_filter.2 ⟨he, by simpa using hne⟩, rfl⟩

/-! ## Stable sort lemmas -/

theorem mem_insertLe {α : Type} {k : α → Int} {x y : α} : ∀ {l : List α},
    y ∈ insertLe k x l ↔ y = x ∨ y ∈ l
  | [] => by simp [insertLe]
  | z :: t => by
    rw [insertLe]
    split
    · simp only [List.mem_cons, mem_insertLe]
      tauto
    · simp only [List.mem_cons]

theorem insertLe_perm {α : Type} (k : α → Int) (x : α) : ∀ (l : List α),
    (insertLe k x l).Perm (x :: l)
  | [] => List.Perm.refl _
  | z :: t => by
    rw [insertLe]
    split
    · exact ((insertLe_perm k x t).cons z).trans (List.Perm.swap x z t)
    · exact List.Perm.refl _

theorem sortByKey_perm {α : Type} (k : α → Int) : ∀ (l : List α),
    (sortByKey k l).Perm l
  | [] => List.Perm.refl _
  | x :: t =>
    (insertLe_perm k x (sortByKey k t)).trans ((sortByKey_perm k t).cons x)

theorem mem_sortByKey {α : Type} {k : α → Int} {y : α} {l : List α} :
    y ∈ sortByKey k l ↔ y ∈ l :=
  (sortByKey_perm k l).mem_iff

theorem insertLe_pairwise {α : Type} {k : α → Int} {x : α} : ∀ {l : List α},
    l.Pairwise (fun a b => k a ≤ k b) →
    (insertLe k x l).Pairwise (fun a b => k a ≤ k b)
  | [], _ => by simp [insertLe]
  | y :: t, h => by
    rw [List.pairwise_cons] at h
    rw [insertLe]
    split
    · next hlt =>
      rw [List.pairwise_cons]
      refine ⟨fun z hz => ?_, insertLe_pairwise h.2⟩
      rcases mem_insertLe.1 hz with rfl | hzt
      · exact le_of_lt hlt
      · exact h.1 z hzt
    · next hnlt =>
      rw [List.pairwise_cons]
      refine ⟨fun z hz => ?_, List.pairwise_cons.2 h⟩
      rcases List.mem_cons.1 hz with rfl | hzt
      · exact le_of_not_lt hnlt
      · exact le_trans (le_of_not_lt hnlt) (h.1 z hzt)

theorem sortByKey_pairwise {α : Type} (k : α → Int) : ∀ (l : List α),
    (sortByKey k l).Pairwise (fun a b => k a ≤ k b)
  | [] => List.Pairwise.nil
  | x :: t => insertLe_pairwise (sortByKey_pairwise k t)

theorem sortByKey_head_min {α : Type} {k : α → Int} {l : List α} {x : α}
    {t : List α} (h : sortByKey k l = x :: t) : ∀ y ∈ l, k x ≤ k y := by
  intro y hy
  have hmem : y ∈ x :: t := h ▸ mem_sortByKey.2 hy
  rcases List.mem_cons.1 hmem with rfl | hyt
  · exact le_refl _
  · have hp := sortByKey_pairwise k l
    rw [h, List.pairwise_cons] at hp
    exact hp.1 y hyt

/-! ## Query-level lemmas -/

theorem get_element_ok_iff {m : MapStore} {id : LaneId} {el : Element} :
    get_element m id = .ok el ↔ idsToEl m.elements id = some el := by
  unfold get_element
  cases h : idsToEl m.elements id with
  | some el2 => simp
  | none => simp

theorem sortByKey_length {α : Type} (k : α → Int) (l : List α) :
    (sortByKey k l).length = l.length :=
  (sortByKey_perm k l).length_eq

theorem sortByKey_eq_nil_iff {α : Type} {k : α → Int} {l : List α} :
    sortByKey k l = [] ↔ l = [] := by
  constructor
  · intro h
    have := sortByKey_length k l
    rw [h] at this
    exact List.eq_nil_of_length_eq_zero this.symm
  · rintro rfl
    rfl

theorem lanesAtAux_mem (m : MapStore) (position : Pt) :
    ∀ {l : List (LaneId × Element)} {ids : List LaneId},
    lanesAtAux m position l = .ok ids → ∀ {id : LaneId}, id ∈ ids →
    ∃ b, get_lane_bounds m id = .ok b ∧ in_bounds position b = true
  | [], ids, h, id, hid => by
    rw [lanesAtAux] at h
    injection h with h
    subst h
    simp at hid
  | (i, el) :: t, ids, h, id, hid => by
    rw [lanesAtAux] at h
    split at h
    · exact lanesAtAux_mem m position h hid
    · cases hb : get_lane_bounds m i with
      | error e =>
        rw [hb] at h
        exact absurd h (by simp)
      | ok b =>
        rw [hb] at h
        cases hr : lanesAtAux m position t with
        | error e =>
          rw [hr] at h
          exact absurd h (by simp)
        | ok rest =>
          rw [hr] at h
          injection h with h
          subst h
          by_cases hin : in_bounds position b = true
          · rw [if_pos hin] at hid
            rcases List.mem_cons.1 hid with rfl | hid2
            · exact ⟨b, hb, hin⟩
            · exact lanesAtAux_mem m position hr hid2
          · rw [if_neg hin] at hid
            exact lanesAtAux_mem m position hr hid

theorem linspace01_mem {n : Nat} {x : ℚ} (h : x ∈ linspace01 n) :
    0 ≤ x ∧ x ≤ 1 := by
  unfold linspace01 at h
  rw [List.mem_map] at h
  obtain ⟨i, hi, hx⟩ := h
  subst hx
  rw [List.mem_range] at hi
  by_cases hn : n ≤ 1
  · rw [if_pos hn]
    norm_num
  · rw [if_neg hn]
    push_neg at hn
    have h2n : 2 ≤ n := hn
    have hden : (1 : ℚ) ≤ (n : ℚ) - 1 := by
      have h2q : (2 : ℚ) ≤ (n : ℚ) := by exact_mod_cast h2n
      linarith
    have hdenpos : (0 : ℚ) < (n : ℚ) - 1 := by linarith
    constructor
    · exact div_nonneg (by positivity) (le_of_lt hdenpos)
    · rw [div_le_one hdenpos]
      have hi2 : i ≤ n - 1 := Nat.le_sub_one_of_lt hi
      have hc : (i : ℚ) ≤ ((n - 1 : Nat) : ℚ) := by exact_mod_cast hi2
      rwa [Nat.cast_sub (by omega), Nat.cast_one] at hc

theorem lanesDistancesAux_spec (m : MapStore) (position : Pt) :
    ∀ {idxs : List Nat} {cands : List (LaneId × Int)},
    lanesDistancesAux m position idxs = .ok cands →
    List.Forall₂ (fun i e => m.boundsIds[i]? = some (Prod.fst e)) idxs cands ∧
    ∀ e ∈ cands, ∃ el, idsToEl m.elements e.1 = some el ∧
      ∃ mp ∈ el.lane.midpointsMeter, e.2 = sqDist mp position ∧
        ∀ mp2 ∈ el.lane.midpointsMeter, e.2 ≤ sqDist mp2 position
  | [], cands, h => by
    rw [lanesDistancesAux] at h
    injection h with h
    subst h
    exact ⟨List.Forall₂.nil, by simp⟩
  | i :: t, cands, h => by
    rw [lanesDistancesAux] at h
    split at h
    · exact absurd h (by simp)
    · next id hid =>
      split at h
      · exact absurd h (by simp)
      · exact absurd h (by simp)
      · next mp rest2 hmp =>
        split at h
        · exact absurd h (by simp)
        · next rest hr =>
          injection h with h
          subst h
          obtain ⟨hfa, hmin⟩ := lanesDistancesAux_spec m position hr
          unfold get_closest_lane_midpoints at hmp
          cases hel : get_element m id with
          | error e =>
            rw [hel] at hmp
            exact absurd hmp (by simp [Except.map])
          | ok el =>
            rw [hel] at hmp
            simp only [Except.map] at hmp
            injection hmp with hmp
            refine ⟨List.Forall₂.cons (by simpa using hid) hfa, ?_⟩
            intro e he
            rcases List.mem_cons.1 he with rfl | he2
            · refine ⟨el, get_element_ok_iff.1 hel, mp, ?_, rfl, ?_⟩
              · have hmem : mp ∈ sortByKey (fun p => sqDist p position)
                    el.lane.midpointsMeter := by
                  rw [hmp]
                  exact List.mem_cons_self _ _
                exact mem_sortByKey.1 hmem
              · exact fun mp2 hmp2 => sortByKey_head_min hmp mp2 hmp2
            · exact hmin e he2

theorem candPairs_length {m : MapStore} {position : Pt}
    {cands : List (LaneId × Int)} (h : candPairs m position = .ok cands) :
    cands.length = (candidateIdxs m position).length :=
  ((lanesDistancesAux_spec m position h).1.length_eq).symm

/-! ## Lemmas about the np.argsort contract -/

theorem filterMap_congr_some {α β : Type} {f : α → Option β} {g : α → β} :
    ∀ {l : List α}, (∀ t ∈ l, f t = some (g t)) → l.filterMap f = l.map g
  | [], _ => rfl
  | a :: t, h => by
    have ha := h a (List.mem_cons_self _ _)
    rw [List.filterMap_cons]
    simp only [ha]
    rw [List.map_cons,
      filterMap_congr_some (fun t2 ht2 => h t2 (List.mem_cons_of_mem _ ht2))]

theorem range_filterMap_getElem? {α : Type} :
    ∀ (l : List α), (List.range l.length).filterMap (fun i => l[i]?) = l
  | [] => rfl
  | a :: t => by
    rw [List.length_cons, List.range_succ_eq_map, List.filterMap_cons]
    simp only [List.getElem?_cons_zero]
    rw [List.filterMap_map]
    have hc : ((fun i => (a :: t)[i]?) ∘ Nat.succ) = fun i => t[i]? := by
      funext i
      simp
    rw [hc, range_filterMap_getElem? t]

theorem mem_enum_getElem? {α : Type} {l : List α} {p : Nat × α}
    (h : p ∈ l.enum) : l[p.1]? = some p.2 := by
  obtain ⟨j, hj⟩ := List.mem_iff_getElem?.mp h
  rw [List.getElem?_enum] at hj
  cases hl : l[j]? with
  | none =>
    rw [hl] at hj
    exact absurd hj (by simp)
  | some a =>
    rw [hl] at hj
    injection hj with hj
    rw [← hj]
    exact hl

theorem permutedCands_map_snd (cands : List (LaneId × Int))
    (perm : List Nat) :
    (permutedCands cands perm).map Prod.snd =
      perm.filterMap (fun i => (cands.map Prod.snd)[i]?) := by
  unfold permutedCands
  rw [List.map_filterMap]
  congr 1
  funext i
  rw [List.getElem?_map]

/-! ## Frontier invariants of get_route -/

theorem mem_keysOf_iff {v : List Entry} {a : LaneId} :
    a ∈ keysOf v ↔ ∃ e ∈ v, e.1 = a := by
  unfold keysOf
  rw [List.mem_map]

theorem lookupKey_of_mem : ∀ {v : List Entry}, (keysOf v).Nodup →
    ∀ {e : Entry}, e ∈ v → lookupKey v e.1 = some e.2
  | [], _, e, he => by simp at he
  | f :: t, hnd, e, he => by
    rw [keysOf_cons, List.nodup_cons] at hnd
    rw [lookupKey]
    rcases List.mem_cons.1 he with rfl | het
    · rw [if_pos rfl]
    · by_cases hfe : f.1 = e.1
      · exact absurd (hfe ▸ mem_keysOf_iff.2 ⟨e, het, rfl⟩) hnd.1
      · rw [if_neg hfe]
        exact lookupKey_of_mem hnd.2 het

theorem ParentOkV_append {init : List LaneId} {v : List Entry} {e : Entry}
    (h : ParentOkV init v) (hnone : e.2 = none → e.1 ∈ init)
    (hsome : ∀ q, e.2 = some q → q ∈ keysOf v) :
    ParentOkV init (v ++ [e]) := by
  intro i e2 hi
  have hlen : i < v.length + 1 := by
    rw [List.getElem?_eq_some] at hi
    simpa using hi.1
  by_cases hiv : i < v.length
  · rw [List.getElem?_append_left hiv] at hi
    refine ⟨(h i e2 hi).1, fun q hq => ?_⟩
    obtain ⟨j, hj, e3, hj2, hj3⟩ := (h i e2 hi).2 q hq
    have hjlt : j < v.length := lt_trans hj hiv
    exact ⟨j, hj, e3, by rw [List.getElem?_append_left hjlt]; exact hj2, hj3⟩
  · have hieq : i = v.length := by omega
    subst hieq
    rw [List.getElem?_concat_length] at hi
    injection hi with hi
    subst hi
    refine ⟨hnone, fun q hq => ?_⟩
    obtain ⟨e3, he3, he3q⟩ := mem_keysOf_iff.1 (hsome q hq)
    obtain ⟨j, hj⟩ := List.mem_iff_getElem?.mp he3
    have hjlt : j < v.length := by
      rw [List.getElem?_eq_some] at hj
      exact hj.1
    exact ⟨j, hjlt, e3, by rw [List.getElem?_append_left hjlt]; exact hj, he3q⟩

theorem insertConn_nil (V : List Entry) (id : LaneId) (uv : List Entry) :
    insertConn V id uv [] = uv := rfl

theorem insertConn_cons (V : List Entry) (id : LaneId) (uv : List Entry)
    (c : LaneId) (conn : List LaneId) :
    insertConn V id uv (c :: conn) =
      insertConn V id
        (if (lookupKey V c).isSome then uv else upsert uv c (some id)) conn := rfl

theorem insertConn_mem_keys {V : List Entry} {id : LaneId} :
    ∀ {conn : List LaneId} {uv : List Entry} {a : LaneId},
    a ∈ keysOf (insertConn V id uv conn) →
    a ∈ keysOf uv ∨ (a ∈ conn ∧ lookupKey V a = none)
  | [], uv, a, h => Or.inl (insertConn_nil V id uv ▸ h)
  | c :: conn, uv, a, h => by
    rw [insertConn_cons] at h
    rcases insertConn_mem_keys h with h2 | h2
    · split at h2
      · exact Or.inl h2
      · next hns =>
        rcases mem_keysOf_upsert.1 h2 with h3 | rfl
        · exact Or.inl h3
        · refine Or.inr ⟨List.mem_cons_self _ _, ?_⟩
          cases hc : lookupKey V a with
          | none => rfl
          | some p => rw [hc] at hns; simp at hns
    · exact Or.inr ⟨List.mem_cons_of_mem _ h2.1, h2.2⟩

theorem insertConn_nodup_keys {V : List Entry} {id : LaneId} :
    ∀ {conn : List LaneId} {uv : List Entry},
    (keysOf uv).Nodup → (keysOf (insertConn V id uv conn)).Nodup
  | [], uv, h => insertConn_nil V id uv ▸ h
  | c :: conn, uv, h => by
    rw [insertConn_cons]
    refine insertConn_nodup_keys ?_
    split
    · exact h
    · exact nodup_keysOf_upsert h

theorem insertConn_mem_entries {V : List Entry} {id : LaneId} :
    ∀ {conn : List LaneId} {uv : List Entry} {e : Entry},
    e ∈ insertConn V id uv conn → e ∈ uv ∨ e.2 = some id
  | [], uv, e, h => Or.inl (insertConn_nil V id uv ▸ h)
  | c :: conn, uv, e, h => by
    rw [insertConn_cons] at h
    rcases insertConn_mem_entries h with h2 | h2
    · split at h2
      · exact Or.inl h2
      · rcases mem_upsert h2 with h3 | rfl
        · exact Or.inl h3
        · exact Or.inr rfl
    · exact Or.inr h2

theorem visitOne_wf {m : MapStore} {init : List LaneId} {st st2 : Frontier}
    {id : LaneId} (hwf : Wf init st) (h : visitOne m st id = .ok st2) :
    Wf init st2 ∧ keysOf st2.visited = keysOf st.visited ++ [id] := by
  rw [visitOne] at h
  split at h
  · exact absurd h (by simp)
  · next p hlk =>
    split at h
    · exact absurd h (by simp)
    · next conn hconn =>
      injection h with h
      subst h
      have hidU : id ∈ keysOf st.unvisited := by
        rw [← lookupKey_isSome_iff, hlk]
        rfl
      have hidV : id ∉ keysOf st.visited := fun hv => hwf.disj id hv hidU
      have hv2 : upsert st.visited id p = st.visited ++ [(id, p)] :=
        upsert_of_not_mem hidV
      have hkeys : keysOf (upsert st.visited id p) = keysOf st.visited ++ [id] := by
        rw [hv2, keysOf_append]
        rfl
      have hmemU : (id, p) ∈ st.unvisited := lookupKey_mem hlk
      refine ⟨⟨?_, ?_, ?_, ?_, ?_⟩, hkeys⟩
      · -- nodupV
        show (keysOf (upsert st.visited id p)).Nodup
        rw [hkeys]
        rw [List.nodup_append]
        refine ⟨hwf.nodupV, List.nodup_singleton id, ?_⟩
        rw [List.disjoint_singleton]
        exact hidV
      · -- nodupU
        exact insertConn_nodup_keys (nodup_keysOf_eraseKey hwf.nodupU)
      · -- disj
        intro a haV haU
        rcases insertConn_mem_keys haU with h2 | h2
        · rw [mem_keysOf_eraseKey] at h2
          rw [hkeys, List.mem_append] at haV
          rcases haV with haV | haV
          · exact hwf.disj a haV h2.1
          · exact h2.2 (by simpa using haV)
        · rw [lookupKey_eq_none_iff] at h2
          exact h2.2 haV
      · -- chainV
        show ParentOkV init (upsert st.visited id p)
        rw [hv2]
        refine ParentOkV_append hwf.chainV ?_ ?_
        · exact fun hp => ((hwf.parentU (id, p) hmemU).1 hp)
        · exact fun q hq => (hwf.parentU (id, p) hmemU).2 q hq
      · -- parentU
        intro e he
        rcases insertConn_mem_entries he with h2 | h2
        · have heU : e ∈ st.unvisited := mem_of_mem_eraseKey h2
          refine ⟨(hwf.parentU e heU).1, fun q hq => ?_⟩
          rw [hkeys, List.mem_append]
          exact Or.inl ((hwf.parentU e heU).2 q hq)
        · refine ⟨fun hp => absurd (h2 ▸ hp) (by simp), fun q hq => ?_⟩
          rw [h2] at hq
          injection hq with hq
          subst hq
          rw [hkeys, List.mem_append]
          exact Or.inr (List.mem_singleton.2 rfl)

theorem visitFold_wf {m : MapStore} {init : List LaneId} :
    ∀ {cur : List LaneId} {st st2 : Frontier},
    Wf init st → visitFold m cur st = .ok st2 →
    Wf init st2 ∧ keysOf st2.visited = keysOf st.visited ++ cur
  | [], st, st2, hwf, h => by
    rw [visitFold] at h
    injection h with h
    subst h
    exact ⟨hwf, by simp⟩
  | id :: cur, st, st2, hwf, h => by
    rw [visitFold] at h
    split at h
    · exact absurd h (by simp)
    · next st3 h3 =>
      obtain ⟨hwf3, hkeys3⟩ := visitOne_wf hwf h3
      obtain ⟨hwf2, hkeys2⟩ := visitFold_wf hwf3 h
      refine ⟨hwf2, ?_⟩
      rw [hkeys2, hkeys3, List.append_assoc]
      rfl

theorem frameStep_wf {m : MapStore} {init : List LaneId} {st st2 : Frontier}
    {position : Pt} (hwf : Wf init st) (h : frameStep m st position = .ok st2) :
    Wf init st2 ∧ ∃ cur, currentIdsAux m position st.unvisited = .ok cur ∧
      keysOf st2.visited = keysOf st.visited ++ cur := by
  rw [frameStep] at h
  split at h
  · exact absurd h (by simp)
  · next cur hcur =>
    obtain ⟨hwf2, hkeys⟩ := visitFold_wf hwf h
    exact ⟨hwf2, cur, hcur, hkeys⟩

theorem runFrames_wf {m : MapStore} {init : List LaneId} :
    ∀ {ps : List Pt} {st st2 : Frontier},
    Wf init st → runFrames m ps st = .ok st2 →
    Wf init st2 ∧ ∀ a, a ∈ keysOf st.visited → a ∈ keysOf st2.visited
  | [], st, st2, hwf, h => by
    rw [runFrames] at h
    injection h with h
    subst h
    exact ⟨hwf, fun a ha => ha⟩
  | p :: ps, st, st2, hwf, h => by
    rw [runFrames] at h
    split at h
    · exact absurd h (by simp)
    · next st3 h3 =>
      obtain ⟨hwf3, cur, hcur, hkeys3⟩ := frameStep_wf hwf h3
      obtain ⟨hwf2, hmono⟩ := runFrames_wf hwf3 h
      refine ⟨hwf2, fun a ha => hmono a ?_⟩
      rw [hkeys3, List.mem_append]
      exact Or.inl ha

theorem seed_aux_mem : ∀ {ids : List LaneId} {uv : List Entry} {e : Entry},
    e ∈ ids.foldl (fun uv id => upsert uv id none) uv →
    e ∈ uv ∨ (e.2 = none ∧ e.1 ∈ ids)
  | [], uv, e, h => Or.inl h
  | id :: ids, uv, e, h => by
    rw [List.foldl_cons] at h
    rcases seed_aux_mem h with h2 | h2
    · rcases mem_upsert h2 with h3 | rfl
      · exact Or.inl h3
      · exact Or.inr ⟨rfl, List.mem_cons_self _ _⟩
    · exact Or.inr ⟨h2.1, List.mem_cons_of_mem _ h2.2⟩

theorem seed_aux_nodup : ∀ {ids : List LaneId} {uv : List Entry},
    (keysOf uv).Nodup →
    (keysOf (ids.foldl (fun uv id => upsert uv id none) uv)).Nodup
  | [], uv, h => h
  | id :: ids, uv, h => by
    rw [List.foldl_cons]
    exact seed_aux_nodup (nodup_keysOf_upsert h)

theorem Wf_seed (init : List LaneId) : Wf init ⟨[], seedUnvisited init⟩ := by
  refine ⟨List.nodup_nil, ?_, ?_, ?_, ?_⟩
  · exact seed_aux_nodup List.nodup_nil
  · intro a ha
    simp [keysOf] at ha
  · intro i e hi
    simp at hi
  · intro e he
    rcases seed_aux_mem he with h2 | h2
    · simp at h2
    · exact ⟨fun _ => h2.2, fun q hq => absurd (h2.1 ▸ hq) (by simp)⟩

theorem currentIdsAux_sub {m : MapStore} {position : Pt} :
    ∀ {uv : List Entry} {cur : List LaneId},
    currentIdsAux m position uv = .ok cur → ∀ a ∈ cur, a ∈ keysOf uv
  | [], cur, h, a, ha => by
    rw [currentIdsAux] at h
    injection h with h
    subst h
    simp at ha
  | e :: t, cur, h, a, ha => by
    rw [currentIdsAux] at h
    split at h
    · exact absurd h (by simp)
    · next b hb =>
      split at h
      · exact absurd h (by simp)
      · next rest hrest =>
        injection h with h
        subst h
        rw [keysOf_cons]
        split at ha
        · rcases List.mem_cons.1 ha with rfl | ha2
          · exact List.mem_cons_self _ _
          · exact List.mem_cons_of_mem _ (currentIdsAux_sub hrest a ha2)
        · exact List.mem_cons_of_mem _ (currentIdsAux_sub hrest a ha)

theorem anyContains_eq_false {l ids : List LaneId} (h : ∀ x ∈ l, x ∉ ids) :
    (l.any fun x => ids.contains x) = false := by
  rw [List.any_eq_false]
  intro x hx hmem
  exact h x hx (by simpa using hmem)

theorem anyContains_eq_true {l ids : List LaneId} {x : LaneId} (hx : x ∈ l)
    (hmem : x ∈ ids) : (l.any fun x => ids.contains x) = true := by
  rw [List.any_eq_true]
  refine ⟨x, hx, ?_⟩
  simpa using hmem

theorem backtrack_ok {visited : List Entry} {init : List LaneId}
    (hnd : (keysOf visited).Nodup) (hchain : ParentOkV init visited) :
    ∀ (i : Nat) (lid : LaneId) (p : Option LaneId) (acc : List LaneId)
    (fuel : Nat),
    visited[i]? = some (lid, p) → (∀ x ∈ acc, x ∉ init) → i + 2 ≤ fuel →
    ∃ rt, backtrackLoop visited init fuel acc (some lid) = .ok rt ∧
      (∃ h0, rt.head? = some h0 ∧ h0 ∈ init) ∧
      rt.getLast? = (lid :: acc).getLast? := by
  intro i
  induction i using Nat.strong_induction_on with
  | _ i ih =>
    intro lid p acc fuel hget hacc hfuel
    obtain ⟨f2, rfl⟩ : ∃ f2, fuel = f2 + 1 + 1 := ⟨fuel - 2, by omega⟩
    have hlk : lookupKey visited lid = some p :=
      lookupKey_of_mem hnd (List.getElem?_mem hget)
    have hanyacc : ¬((acc.any fun x => init.contains x) = true) := by
      rw [anyContains_eq_false hacc]
      exact Bool.false_ne_true
    rw [backtrackLoop, if_neg hanyacc]
    simp only [hlk]
    cases p with
    | none =>
      have hlid : lid ∈ init := (hchain i (lid, none) hget).1 rfl
      have hany : ((lid :: acc).any fun x => init.contains x) = true :=
        anyContains_eq_true (List.mem_cons_self _ _) hlid
      refine ⟨lid :: acc, ?_, ⟨lid, rfl, hlid⟩, rfl⟩
      rw [backtrackLoop, if_pos hany]
    | some q =>
      by_cases hlid : lid ∈ init
      · have hany : ((lid :: acc).any fun x => init.contains x) = true :=
          anyContains_eq_true (List.mem_cons_self _ _) hlid
        refine ⟨lid :: acc, ?_, ⟨lid, rfl, hlid⟩, rfl⟩
        rw [backtrackLoop, if_pos hany]
      · obtain ⟨j, hj, e2, hgetj, hq⟩ := (hchain i (lid, some q) hget).2 q rfl
        obtain ⟨q1, pq⟩ := e2
        dsimp only at hq
        subst hq
        have hacc2 : ∀ x ∈ lid :: acc, x ∉ init := by
          intro x hx
          rcases List.mem_cons.1 hx with rfl | hx2
          · exact hlid
          · exact hacc x hx2
        obtain ⟨rt, hrt, hhead, hlast⟩ :=
          ih j hj q1 pq (lid :: acc) (f2 + 1) hgetj hacc2 (by omega)
        exact ⟨rt, hrt, hhead, hlast.trans List.getLast?_cons_cons⟩

theorem scanFinals_spec {visited : List Entry} {init : List LaneId}
    (hnd : (keysOf visited).Nodup) (hchain : ParentOkV init visited) :
    ∀ finals : List LaneId,
    (∃ r, scanFinals visited init finals = .ok r) ∧
    ∀ rt, scanFinals visited init finals = .ok (some rt) →
      ∃ f, f ∈ finals ∧ rt.getLast? = some f ∧
        ∃ h0, rt.head? = some h0 ∧ h0 ∈ init
  | [] =>
    ⟨⟨none, rfl⟩, fun rt h => by
      rw [scanFinals] at h
      exact absurd h (by simp)⟩
  | f :: t => by
    by_cases hlk : (lookupKey visited f).isNone
    · rw [scanFinals, if_pos hlk]
      obtain ⟨⟨r, hr⟩, hspec⟩ := scanFinals_spec hnd hchain t
      refine ⟨⟨r, hr⟩, fun rt h => ?_⟩
      obtain ⟨f2, hf2, hrest⟩ := hspec rt h
      exact ⟨f2, List.mem_cons_of_mem _ hf2, hrest⟩
    · obtain ⟨p, hp⟩ : ∃ p, lookupKey visited f = some p := by
        cases h2 : lookupKey visited f with
        | none => exact absurd (by rw [h2]; rfl) hlk
        | some p => exact ⟨p, rfl⟩
      have hmem : (f, p) ∈ visited := lookupKey_mem hp
      obtain ⟨i, hi⟩ := List.mem_iff_getElem?.mp hmem
      have hilt : i < visited.length := by
        rw [List.getElem?_eq_some] at hi
        exact hi.1
      obtain ⟨rt, hrt, hhead, hlast⟩ :=
        backtrack_ok hnd hchain i f p [] (visited.length + 1) hi
          (by simp) (by omega)
      rw [scanFinals, if_neg hlk]
      simp only [hrt]
      refine ⟨⟨some rt, rfl⟩, fun rt2 h => ?_⟩
      injection h with h
      injection h with h
      subst h
      exact ⟨f, List.mem_cons_self _ _, by rw [hlast]; rfl, hhead⟩

/-! ## Error classification: only the backtracking loop can mention the fuel
marker, and reconstruction never reaches it -/

theorem get_element_ne_fuel {m : MapStore} {id : LaneId} {e : Err}
    (h : get_element m id = .error e) : e ≠ .outOfFuel := by
  rw [get_element] at h
  split at h
  · exact absurd h (by simp)
  · injection h with h
    subst h
    simp

theorem get_lane_ne_fuel {m : MapStore} {id : LaneId} {e : Err}
    (h : get_lane m id = .error e) : e ≠ .outOfFuel := by
  rw [get_lane] at h
  cases h2 : get_element m id with
  | error e2 =>
    rw [h2] at h
    simp only [Except.map] at h
    injection h with h
    subst h
    exact get_element_ne_fuel h2
  | ok el =>
    rw [h2] at h
    simp [Except.map] at h

theorem get_lane_bounds_ne_fuel {m : MapStore} {id : LaneId} {e : Err}
    (h : get_lane_bounds m id = .error e) : e ≠ .outOfFuel := by
  rw [get_lane_bounds] at h
  split at h
  · next e2 h2 =>
    injection h with h
    subst h
    exact get_element_ne_fuel h2
  · split at h
    · exact absurd h (by simp)
    · injection h with h
      subst h
      simp

theorem get_connected_ne_fuel {m : MapStore} {id : LaneId} {e : Err}
    (h : get_connected_lanes_ids m id = .error e) : e ≠ .outOfFuel := by
  rw [get_connected_lanes_ids] at h
  split at h
  · next e2 h2 =>
    injection h with h
    subst h
    rw [get_ahead_lanes_ids] at h2
    cases h3 : get_lane m id with
    | error e3 =>
      rw [h3] at h2
      simp only [Except.map] at h2
      injection h2 with h2
      subst h2
      exact get_lane_ne_fuel h3
    | ok lane =>
      rw [h3] at h2
      simp [Except.map] at h2
  · split at h
    · next e2 h2 =>
      injection h with h
      subst h
      rw [get_change_lanes_ids] at h2
      cases h3 : get_lane m id with
      | error e3 =>
        rw [h3] at h2
        simp only [Except.map] at h2
        injection h2 with h2
        subst h2
        exact get_lane_ne_fuel h3
      | ok lane =>
        rw [h3] at h2
        simp [Except.map] at h2
    · exact absurd h (by simp)

theorem currentIdsAux_ne_fuel {m : MapStore} {position : Pt} :
    ∀ {uv : List Entry} {e : Err},
    currentIdsAux m position uv = .error e → e ≠ .outOfFuel
  | [], e, h => by
    rw [currentIdsAux] at h
    exact absurd h (by simp)
  | f :: t, e, h => by
    rw [currentIdsAux] at h
    split at h
    · next e2 h2 =>
      injection h with h
      subst h
      exact get_lane_bounds_ne_fuel h2
    · split at h
      · next e2 h2 =>
        injection h with h
        subst h
        exact currentIdsAux_ne_fuel h2
      · exact absurd h (by simp)

theorem visitOne_ne_fuel {m : MapStore} {st : Frontier} {id : LaneId} {e : Err}
    (h : visitOne m st id = .error e) : e ≠ .outOfFuel := by
  rw [visitOne] at h
  split at h
  · injection h with h
    subst h
    simp
  · split at h
    · next e2 h2 =>
      injection h with h
      subst h
      exact get_connected_ne_fuel h2
    · exact absurd h (by simp)

theorem visitFold_ne_fuel {m : MapStore} :
    ∀ {cur : List LaneId} {st : Frontier} {e : Err},
    visitFold m cur st = .error e → e ≠ .outOfFuel
  | [], st, e, h => by
    rw [visitFold] at h
    exact absurd h (by simp)
  | id :: cur, st, e, h => by
    rw [visitFold] at h
    split at h
    · next e2 h2 =>
      injection h with h
      subst h
      exact visitOne_ne_fuel h2
    · exact visitFold_ne_fuel h

theorem frameStep_ne_fuel {m : MapStore} {st : Frontier} {position : Pt}
    {e : Err} (h : frameStep m st position = .error e) : e ≠ .outOfFuel := by
  rw [frameStep] at h
  split at h
  · next e2 h2 =>
    injection h with h
    subst h
    exact currentIdsAux_ne_fuel h2
  · exact visitFold_ne_fuel h

theorem runFrames_ne_fuel {m : MapStore} :
    ∀ {ps : List Pt} {st : Frontier} {e : Err},
    runFrames m ps st = .error e → e ≠ .outOfFuel
  | [], st, e, h => by
    rw [runFrames] at h
    exact absurd h (by simp)
  | position :: ps, st, e, h => by
    rw [runFrames] at h
    split at h
    · next e2 h2 =>
      injection h with h
      subst h
      exact frameStep_ne_fuel h2
    · exact runFrames_ne_fuel h

theorem lanesAtAux_ne_fuel {m : MapStore} {position : Pt} :
    ∀ {l : List (LaneId × Element)} {e : Err},
    lanesAtAux m position l = .error e → e ≠ .outOfFuel
  | [], e, h => by
    rw [lanesAtAux] at h
    exact absurd h (by simp)
  | (id, el) :: t, e, h => by
    rw [lanesAtAux] at h
    split at h
    · exact lanesAtAux_ne_fuel h
    · split at h
      · next e2 h2 =>
        injection h with h
        subst h
        exact get_lane_bounds_ne_fuel h2
      · split at h
        · next e2 h2 =>
          injection h with h
          subst h
          exact lanesAtAux_ne_fuel h2
        · exact absurd h (by simp)

theorem initialIdsOf_ne_fuel {m : MapStore} {trajectory : List Pt} {e : Err}
    (h : initialIdsOf m trajectory = .error e) : e ≠ .outOfFuel := by
  rw [initialIdsOf] at h
  split at h
  · exact lanesAtAux_ne_fuel h
  · injection h with h
    subst h
    simp

theorem finalIdsOf_ne_fuel {m : MapStore} {trajectory : List Pt} {e : Err}
    (h : finalIdsOf m trajectory = .error e) : e ≠ .outOfFuel := by
  rw [finalIdsOf] at h
  split at h
  · exact lanesAtAux_ne_fuel h
  · injection h with h
    subst h
    simp

theorem currentIdsAux_error_of_mem (m : MapStore) (position : Pt) :
    ∀ {uv : List Entry} {id : LaneId} {p : Option LaneId} {err : Err},
    (id, p) ∈ uv → get_lane_bounds m id = .error err →
    ∃ e2, currentIdsAux m position uv = .error e2
  | [], id, p, err, hmem, _ => by simp at hmem
  | f :: t, id, p, err, hmem, hb => by
    cases h2 : get_lane_bounds m f.1 with
    | error e2 =>
      refine ⟨e2, ?_⟩
      rw [currentIdsAux]
      simp only [h2]
    | ok b =>
      rcases List.mem_cons.1 hmem with rfl | hmem2
      · dsimp only at h2
        rw [hb] at h2
        exact absurd h2 (by simp)
      · obtain ⟨e2, h3⟩ := currentIdsAux_error_of_mem m position hmem2 hb
        refine ⟨e2, ?_⟩
        rw [currentIdsAux]
        simp only [h2, h3]

/-! ## The claims -/

/-- C1, counterexample: the claim says a lane id referenced by adjacency but
absent from the element table is skipped and never aborts reconstruction.  On
this concrete store, the lanes-ahead of lane A references the absent id B; B is
inserted into the frontier at the second trajectory sample, and at the third
sample the per-neighbor bounds lookup raises KeyError, which aborts the whole
get_route call. -/
theorem C1_counterexample :
    idsToEl exStoreDangling.elements laneB = none ∧
    get_route exStoreDangling [(1, 2), (2, 2), (3, 2)] = .error .keyError :=
  ⟨by rfl, by rfl⟩

/-- C1, amended: a lane id in the unvisited frontier whose bounds lookup
fails (for instance because the id is absent from the element table) makes
the whole frame step of route reconstruction raise, rather than being
skipped; only empty-string sentinel adjacency ids are filtered out. -/
theorem C1_theorem (m : MapStore) (position : Pt) (st : Frontier)
    (id : LaneId) (p : Option LaneId) (err : Err)
    (hmem : (id, p) ∈ st.unvisited) (hb : get_lane_bounds m id = .error err) :
    ∃ e2, frameStep m st position = .error e2 := by
  obtain ⟨e2, h2⟩ := currentIdsAux_error_of_mem m position hmem hb
  refine ⟨e2, ?_⟩
  rw [frameStep]
  simp only [h2]

/-- C1, witness for the amended theorem at a concrete frontier. -/
theorem C1_witness :
    ((laneB, some laneA) ∈ [(laneB, some laneA)] ∧
      get_lane_bounds exStoreDangling laneB = .error .keyError) ∧
    ∃ e2, frameStep exStoreDangling ⟨[(laneA, none)], [(laneB, some laneA)]⟩
      (3, 2) = .error e2 :=
  ⟨⟨List.mem_singleton.2 rfl, by rfl⟩,
    C1_theorem exStoreDangling (3, 2) ⟨[(laneA, none)], [(laneB, some laneA)]⟩
      laneB (some laneA) .keyError (List.mem_singleton.2 rfl) (by rfl)⟩

/-- C2, counterexample: the claim asserts that ties in nearest-midpoint
distance are broken by the original candidate order (a stable sort).  The
code calls np.argsort with its default kind, whose documented contract
(IsArgsortOf) leaves the order of equal keys unspecified: at this concrete
query both candidate lanes are equidistant, the reversed index order [1, 0]
is admissible under the contract, and it yields the output [B, A] instead of
the original candidate order [A, B].  The program therefore does not
guarantee the claimed tie-break. -/
theorem C2_counterexample :
    candPairs exStoreTie (5, 0) = .ok [(laneA, 4), (laneB, 4)] ∧
    IsArgsortOf
      (([(laneA, 4), (laneB, 4)] : List (LaneId × Int)).map Prod.snd)
      [1, 0] ∧
    (permutedCands [(laneA, 4), (laneB, 4)] [1, 0]).map Prod.fst =
      [laneB, laneA] ∧
    ([laneB, laneA] : List LaneId) ≠
      ([(laneA, 4), (laneB, 4)] : List (LaneId × Int)).map Prod.fst :=
  ⟨by rfl, ⟨by decide, by decide⟩, by rfl, by decide⟩

/-- C2, amended: when the coarse candidate set is non-empty and every
candidate is resolvable, the nearest-lane query returns the candidate ids
sorted in nondecreasing order of the (squared, hence also Euclidean)
distance from the query position to the nearest resampled midpoint, as a
permutation of the candidates, and each recorded distance is realised by a
nearest midpoint of that lane.  This holds for every index permutation
admissible under the documented np.argsort contract — the order among
candidates at equal distance is unspecified, not the original candidate
order — and the output of get_closest_lanes_ids arises from one such
admissible permutation. -/
theorem C2_theorem (m : MapStore) (position : Pt)
    (cands : List (LaneId × Int)) (perm : List Nat)
    (h : candPairs m position = .ok cands)
    (hne : candidateIdxs m position ≠ [])
    (hperm : IsArgsortOf (cands.map Prod.snd) perm) :
    (permutedCands cands perm).Perm cands ∧
    (permutedCands cands perm).Pairwise (fun a b => a.2 ≤ b.2) ∧
    (permutedCands cands perm).Pairwise (fun a b =>
      Real.sqrt ((a.2 : Int) : ℝ) ≤ Real.sqrt ((b.2 : Int) : ℝ)) ∧
    (∀ e ∈ cands, ∃ el, idsToEl m.elements e.1 = some el ∧
      ∃ mp ∈ el.lane.midpointsMeter, e.2 = sqDist mp position ∧
        ∀ mp2 ∈ el.lane.midpointsMeter, e.2 ≤ sqDist mp2 position) ∧
    ∃ perm0, IsArgsortOf (cands.map Prod.snd) perm0 ∧
      get_closest_lanes_ids m position =
        .ok (some ((permutedCands cands perm0).map Prod.fst)) := by
  obtain ⟨hp, hsorted⟩ := hperm
  have hpairs : (permutedCands cands perm).Pairwise
      (fun a b => a.2 ≤ b.2) := by
    have h2 : ((permutedCands cands perm).map Prod.snd).Pairwise
        (fun a b : Int => a ≤ b) := by
      rw [permutedCands_map_snd]
      exact hsorted
    exact List.pairwise_map.mp h2
  refine ⟨?_, hpairs, ?_, (lanesDistancesAux_spec m position h).2, ?_⟩
  · rw [List.length_map] at hp
    have hfm := hp.filterMap (fun i => cands[i]?)
    rw [range_filterMap_getElem? cands] at hfm
    exact hfm
  · refine hpairs.imp ?_
    intro a b hab
    exact Real.sqrt_le_sqrt (by exact_mod_cast hab)
  · refine ⟨(sortByKey (fun t : Nat × LaneId × Int => t.2.2)
      cands.enum).map Prod.fst, ⟨?_, ?_⟩, ?_⟩
    · have hp0 := (sortByKey_perm (fun t : Nat × LaneId × Int => t.2.2)
        cands.enum).map Prod.fst
      rw [List.enum_map_fst] at hp0
      rw [List.length_map]
      exact hp0
    · have hsome : ∀ t ∈ sortByKey (fun t : Nat × LaneId × Int => t.2.2)
          cands.enum, (cands.map Prod.snd)[t.1]? = some t.2.2 := by
        intro t ht
        rw [List.getElem?_map, mem_enum_getElem? (mem_sortByKey.1 ht)]
        rfl
      rw [List.filterMap_map]
      have hfm : List.filterMap
          ((fun i => (cands.map Prod.snd)[i]?) ∘ Prod.fst)
          (sortByKey (fun t : Nat × LaneId × Int => t.2.2) cands.enum) =
          (sortByKey (fun t : Nat × LaneId × Int => t.2.2) cands.enum).map
            (fun t => t.2.2) :=
        filterMap_congr_some hsome
      rw [hfm]
      exact List.pairwise_map.mpr (sortByKey_pairwise _ _)
    · have hout : permutedCands cands
          ((sortByKey (fun t : Nat × LaneId × Int => t.2.2)
            cands.enum).map Prod.fst) =
          (sortByKey (fun t : Nat × LaneId × Int => t.2.2)
            cands.enum).map Prod.snd := by
        unfold permutedCands
        rw [List.filterMap_map]
        exact filterMap_congr_some
          (fun t ht => mem_enum_getElem? (mem_sortByKey.1 ht))
      have hfun : ((sortByKey (fun t : Nat × LaneId × Int => t.2.2)
            cands.enum).map Prod.snd).map Prod.fst =
          (sortByKey (fun t : Nat × LaneId × Int => t.2.2)
            cands.enum).map (fun t => t.2.1) := by
        rw [List.map_map]
        rfl
      have hgr : get_closest_lanes_ids m position =
          .ok (some ((sortByKey (fun t => t.2.2) cands.enum).map
            (fun t => t.2.1))) := by
        unfold get_closest_lanes_ids
        dsimp only
        rw [if_neg hne]
        simp only [h]
      rw [hout, hfun]
      exact hgr

/-- C2, witness for the amended theorem at the one-lane store with the only
admissible permutation [0]. -/
theorem C2_witness :
    (candPairs exStore (1, 1) = .ok [(laneA, 1)] ∧
      candidateIdxs exStore (1, 1) ≠ [] ∧
      IsArgsortOf (([(laneA, 1)] : List (LaneId × Int)).map Prod.snd) [0]) ∧
    ((permutedCands [(laneA, 1)] [0]).Perm [(laneA, 1)] ∧
      (permutedCands [(laneA, 1)] [0]).Pairwise (fun a b => a.2 ≤ b.2) ∧
      (permutedCands [(laneA, 1)] [0]).Pairwise (fun a b =>
        Real.sqrt ((a.2 : Int) : ℝ) ≤ Real.sqrt ((b.2 : Int) : ℝ)) ∧
      (∀ e ∈ ([(laneA, 1)] : List (LaneId × Int)),
        ∃ el, idsToEl exStore.elements e.1 = some el ∧
        ∃ mp ∈ el.lane.midpointsMeter, e.2 = sqDist mp (1, 1) ∧
          ∀ mp2 ∈ el.lane.midpointsMeter, e.2 ≤ sqDist mp2 (1, 1)) ∧
      ∃ perm0, IsArgsortOf
          (([(laneA, 1)] : List (LaneId × Int)).map Prod.snd) perm0 ∧
        get_closest_lanes_ids exStore (1, 1) =
          .ok (some ((permutedCands [(laneA, 1)] perm0).map Prod.fst))) :=
  ⟨⟨by rfl, by decide, ⟨by decide, by decide⟩⟩,
    C2_theorem exStore (1, 1) [(laneA, 1)] [0] (by rfl) (by decide)
      ⟨by decide, by decide⟩⟩

/-- C3: route reconstruction never runs the backtracking loop out of its
termination bound, and every non-none route it returns is nonempty, starts
at a lane containing the initial trajectory sample, and ends at a lane
containing the second-to-last trajectory sample. -/
theorem C3_theorem (m : MapStore) (trajectory : List Pt) :
    get_route m trajectory ≠ .error .outOfFuel ∧
    ∀ rt initialIds finalIds, get_route m trajectory = .ok (some rt) →
      initialIdsOf m trajectory = .ok initialIds →
      finalIdsOf m trajectory = .ok finalIds →
      rt ≠ [] ∧ (∃ h0, rt.head? = some h0 ∧ h0 ∈ initialIds) ∧
      ∃ l0, rt.getLast? = some l0 ∧ l0 ∈ finalIds := by
  cases hinit : initialIdsOf m trajectory with
  | error e =>
    have hgr : get_route m trajectory = .error e := by
      rw [get_route]
      simp only [hinit]
    rw [hgr]
    constructor
    · intro hc
      injection hc with hc
      exact initialIdsOf_ne_fuel hinit hc
    · intro rt i f hr
      exact absurd hr (by simp)
  | ok initialIds =>
    cases hfin : finalIdsOf m trajectory with
    | error e =>
      have hgr : get_route m trajectory = .error e := by
        rw [get_route]
        simp only [hinit, hfin]
      rw [hgr]
      constructor
      · intro hc
        injection hc with hc
        exact finalIdsOf_ne_fuel hfin hc
      · intro rt i f hr
        exact absurd hr (by simp)
    | ok finalIds =>
      cases hrun : runFrames m (trajectory.drop 1)
          ⟨[], seedUnvisited initialIds⟩ with
      | error e =>
        have hgr : get_route m trajectory = .error e := by
          rw [get_route]
          simp only [hinit, hfin, hrun]
        rw [hgr]
        constructor
        · intro hc
          injection hc with hc
          exact runFrames_ne_fuel hrun hc
        · intro rt i f hr
          exact absurd hr (by simp)
      | ok st =>
        have hgr : get_route m trajectory =
            scanFinals st.visited initialIds finalIds := by
          rw [get_route]
          simp only [hinit, hfin, hrun]
        rw [hgr]
        have hwf : Wf initialIds st :=
          (runFrames_wf (Wf_seed initialIds) hrun).1
        obtain ⟨⟨r, hr⟩, hspec⟩ :=
          scanFinals_spec hwf.nodupV hwf.chainV finalIds
        constructor
        · rw [hr]
          intro hc
          exact Except.noConfusion hc
        · intro rt i f hroute hi hf
          injection hi with hi
          subst hi
          injection hf with hf
          subst hf
          obtain ⟨f0, hf0mem, hlast, h0, hhead, hh0⟩ := hspec rt hroute
          refine ⟨?_, ⟨h0, hhead, hh0⟩, ⟨f0, hlast, hf0mem⟩⟩
          intro hnil
          rw [hnil] at hhead
          exact absurd hhead (by simp)

/-- C3, witness: a trajectory inside the single lane A yields route [A]. -/
theorem C3_witness :
    (get_route exStore [(1, 2), (2, 2), (9, 2)] = .ok (some [laneA]) ∧
      initialIdsOf exStore [(1, 2), (2, 2), (9, 2)] = .ok [laneA] ∧
      finalIdsOf exStore [(1, 2), (2, 2), (9, 2)] = .ok [laneA]) ∧
    (([laneA] : List LaneId) ≠ [] ∧
      (∃ h0, ([laneA] : List LaneId).head? = some h0 ∧ h0 ∈ [laneA]) ∧
      ∃ l0, ([laneA] : List LaneId).getLast? = some l0 ∧ l0 ∈ [laneA]) :=
  ⟨⟨by rfl, by rfl, by rfl⟩,
    (C3_theorem exStore [(1, 2), (2, 2), (9, 2)]).2 [laneA] [laneA] [laneA]
      (by rfl) (by rfl) (by rfl)⟩

/-- C4: along any reconstruction run (frames split as ps1 then ps2, both
starting from the seeded frontier), visited and unvisited have disjoint key
sets after each frame, and a key that has entered visited stays visited and
is never reinserted into unvisited at any later frame. -/
theorem C4_theorem (m : MapStore) (init : List LaneId) (ps1 ps2 : List Pt)
    (st1 st2 : Frontier)
    (h1 : runFrames m ps1 ⟨[], seedUnvisited init⟩ = .ok st1)
    (h2 : runFrames m ps2 st1 = .ok st2) :
    (∀ a, a ∈ keysOf st1.visited → a ∉ keysOf st1.unvisited) ∧
    ∀ a, a ∈ keysOf st1.visited →
      a ∈ keysOf st2.visited ∧ a ∉ keysOf st2.unvisited := by
  obtain ⟨hwf1, hmono1⟩ := runFrames_wf (Wf_seed init) h1
  obtain ⟨hwf2, hmono⟩ := runFrames_wf hwf1 h2
  exact ⟨hwf1.disj, fun a ha => ⟨hmono a ha, hwf2.disj a (hmono a ha)⟩⟩

/-- C4, witness at the one-lane store with a two-frame run split 1 + 1. -/
theorem C4_witness :
    (runFrames exStore [(2, 2)] ⟨[], seedUnvisited [laneA]⟩ =
        .ok ⟨[(laneA, none)], []⟩ ∧
      runFrames exStore [(9, 2)] ⟨[(laneA, none)], []⟩ =
        .ok ⟨[(laneA, none)], []⟩) ∧
    ((∀ a, a ∈ keysOf ([(laneA, none)] : List Entry) →
        a ∉ keysOf ([] : List Entry)) ∧
      ∀ a, a ∈ keysOf ([(laneA, none)] : List Entry) →
        a ∈ keysOf ([(laneA, none)] : List Entry) ∧
        a ∉ keysOf ([] : List Entry)) :=
  ⟨⟨by rfl, by rfl⟩,
    C4_theorem exStore [laneA] [(2, 2)] [(9, 2)] ⟨[(laneA, none)], []⟩
      ⟨[(laneA, none)], []⟩ (by rfl) (by rfl)⟩

/-- C5: get_lanes_ids_at only returns lanes whose bounds strictly contain
the position on all four edges; a position lying exactly on a bounding edge
is never contained. -/
theorem C5_theorem (m : MapStore) (position : Pt) (ids : List LaneId)
    (id : LaneId) (b : Bounds) (h : get_lanes_ids_at m position = .ok ids)
    (hid : id ∈ ids) (hb : get_lane_bounds m id = .ok b) :
    in_bounds position b = true ∧
    b.xmin < position.1 ∧ position.1 < b.xmax ∧
    b.ymin < position.2 ∧ position.2 < b.ymax ∧
    ((position.1 = b.xmin ∨ position.1 = b.xmax ∨
      position.2 = b.ymin ∨ position.2 = b.ymax) → False) := by
  obtain ⟨b2, hb2, hin⟩ := lanesAtAux_mem m position h hid
  rw [hb] at hb2
  injection hb2 with hb2
  subst hb2
  have hin2 := hin
  simp only [in_bounds, Bool.and_eq_true, decide_eq_true_eq] at hin2
  obtain ⟨⟨h1, h2⟩, h3, h4⟩ := hin2
  refine ⟨hin, h1, h2, h3, h4, ?_⟩
  rintro (h5 | h5 | h5 | h5) <;> omega

/-- C5, witness at the one-lane store. -/
theorem C5_witness :
    (get_lanes_ids_at exStore (1, 2) = .ok [laneA] ∧ laneA ∈ [laneA] ∧
      get_lane_bounds exStore laneA = .ok ⟨0, 0, 10, 4⟩) ∧
    (in_bounds (1, 2) ⟨0, 0, 10, 4⟩ = true ∧
      (0 : Int) < 1 ∧ (1 : Int) < 10 ∧ (0 : Int) < 2 ∧ (2 : Int) < 4 ∧
      (((1 : Int) = 0 ∨ (1 : Int) = 10 ∨ (2 : Int) = 0 ∨ (2 : Int) = 4) →
        False)) :=
  ⟨⟨by rfl, List.mem_singleton.2 rfl, by rfl⟩,
    C5_theorem exStore (1, 2) [laneA] laneA ⟨0, 0, 10, 4⟩ (by rfl)
      (List.mem_singleton.2 rfl) (by rfl)⟩

/-- C6: get_closest_lanes_ids returns none exactly when the coarse
bounding-box candidate set is empty, and any sequence it does return is
non-empty. -/
theorem C6_theorem (m : MapStore) (position : Pt) :
    (get_closest_lanes_ids m position = .ok none ↔
      candidateIdxs m position = []) ∧
    ∀ ids, get_closest_lanes_ids m position = .ok (some ids) → ids ≠ [] := by
  by_cases hidx : candidateIdxs m position = []
  · have hgr : get_closest_lanes_ids m position = .ok none := by
      unfold get_closest_lanes_ids
      dsimp only
      rw [if_pos hidx]
    rw [hgr]
    refine ⟨⟨fun _ => hidx, fun _ => rfl⟩, ?_⟩
    intro ids hids
    injection hids with hids
    exact absurd hids (by simp)
  · cases hc : candPairs m position with
    | error e =>
      have hgr : get_closest_lanes_ids m position = .error e := by
        unfold get_closest_lanes_ids
        dsimp only
        rw [if_neg hidx]
        simp only [hc]
      rw [hgr]
      refine ⟨⟨fun hcon => absurd hcon (by simp),
        fun hcon => absurd hcon hidx⟩, ?_⟩
      intro ids hids
      exact absurd hids (by simp)
    | ok cands =>
      have hgr : get_closest_lanes_ids m position =
          .ok (some ((sortByKey (fun t => t.2.2) cands.enum).map
            (fun t => t.2.1))) := by
        unfold get_closest_lanes_ids
        dsimp only
        rw [if_neg hidx]
        simp only [hc]
      rw [hgr]
      constructor
      · constructor
        · intro hcon
          injection hcon with hcon
          exact absurd hcon (by simp)
        · intro hcon
          exact absurd hcon hidx
      · intro ids hids
        injection hids with hids
        injection hids with hids
        subst hids
        intro hnil
        apply hidx
        rw [List.map_eq_nil_iff] at hnil
        have henil := sortByKey_eq_nil_iff.1 hnil
        have hcnil : cands = [] := by
          have hlen : cands.enum.length = cands.length := List.enum_length
          rw [henil] at hlen
          exact List.eq_nil_of_length_eq_zero hlen.symm
        have hlen2 := candPairs_length hc
        rw [hcnil] at hlen2
        exact List.eq_nil_of_length_eq_zero hlen2.symm

/-- C6, witness: the inner non-emptiness implication instantiated at the
one-lane store. -/
theorem C6_witness : ([laneA] : List LaneId) ≠ [] :=
  (C6_theorem exStore (1, 1)).2 [laneA] (by rfl)

/-- C7: for a resolvable lane with at least one resampled midpoint,
get_lane_progress succeeds with a value in [0, 1] that is the uniformly
spaced progress value assigned to a midpoint of minimal distance to the
query position. -/
theorem C7_theorem (m : MapStore) (position : Pt) (id : LaneId) (el : Element)
    (hel : idsToEl m.elements id = some el)
    (hne : el.lane.midpointsLen ≠ []) :
    ∃ r, get_lane_progress m position id = .ok r ∧ 0 ≤ r ∧ r ≤ 1 ∧
      ∃ (i : Nat) (mp : Pt), el.lane.midpointsLen[i]? = some mp ∧
        (linspace01 el.lane.midpointsLen.length)[i]? = some r ∧
        ∀ (j : Nat) (mp2 : Pt), el.lane.midpointsLen[j]? = some mp2 →
          sqDist mp position ≤ sqDist mp2 position := by
  have helo : get_element m id = .ok el := get_element_ok_iff.2 hel
  have hlin : (linspace01 el.lane.midpointsLen.length).length =
      el.lane.midpointsLen.length := by
    simp [linspace01]
  have hpairs_len :
      ((linspace01 el.lane.midpointsLen.length).zip
        (el.lane.midpointsLen.map (fun p => sqDist p position))).length =
      el.lane.midpointsLen.length := by
    rw [List.length_zip, hlin, List.length_map, min_self]
  have hpairs_ne :
      (linspace01 el.lane.midpointsLen.length).zip
        (el.lane.midpointsLen.map (fun p => sqDist p position)) ≠ [] := by
    intro hcon
    apply hne
    apply List.eq_nil_of_length_eq_zero
    rw [← hpairs_len, hcon]
    rfl
  cases hs : sortByKey (fun pr : ℚ × Int => pr.2)
      ((linspace01 el.lane.midpointsLen.length).zip
        (el.lane.midpointsLen.map (fun p => sqDist p position))) with
  | nil => exact absurd (sortByKey_eq_nil_iff.1 hs) hpairs_ne
  | cons pr rest =>
    have hres : get_lane_progress m position id = .ok pr.1 := by
      rw [get_lane_progress]
      simp only [helo]
      simp only [hs]
    have hprmem : pr ∈ (linspace01 el.lane.midpointsLen.length).zip
        (el.lane.midpointsLen.map (fun p => sqDist p position)) := by
      have hmem : pr ∈ sortByKey (fun pr : ℚ × Int => pr.2)
          ((linspace01 el.lane.midpointsLen.length).zip
            (el.lane.midpointsLen.map (fun p => sqDist p position))) := by
        rw [hs]
        exact List.mem_cons_self _ _
      exact mem_sortByKey.1 hmem
    have hmin := sortByKey_head_min hs
    obtain ⟨i, hi⟩ := List.mem_iff_getElem?.mp hprmem
    obtain ⟨hlini, hmapi⟩ := List.getElem?_zip_eq_some.1 hi
    rw [List.getElem?_map] at hmapi
    cases hmp : el.lane.midpointsLen[i]? with
    | none =>
      rw [hmp] at hmapi
      exact absurd hmapi (by simp)
    | some mp =>
      rw [hmp] at hmapi
      injection hmapi with hmapi
      have hr01 := linspace01_mem (List.getElem?_mem hlini)
      refine ⟨pr.1, hres, hr01.1, hr01.2, i, mp, hmp, hlini, ?_⟩
      intro j mp2 hj
      have hjlt : j < el.lane.midpointsLen.length := by
        rw [List.getElem?_eq_some] at hj
        exact hj.1
      have hjlin : j < (linspace01 el.lane.midpointsLen.length).length := by
        rw [hlin]
        exact hjlt
      cases hlj : (linspace01 el.lane.midpointsLen.length)[j]? with
      | none =>
        rw [List.getElem?_eq_none_iff] at hlj
        omega
      | some lj =>
        have hpj : ((linspace01 el.lane.midpointsLen.length).zip
            (el.lane.midpointsLen.map (fun p => sqDist p position)))[j]? =
            some (lj, sqDist mp2 position) := by
          refine List.getElem?_zip_eq_some.2 ⟨hlj, ?_⟩
          rw [List.getElem?_map, hj]
          rfl
        have hle := hmin _ (List.getElem?_mem hpj)
        dsimp only at hmapi
        rw [hmapi]
        exact hle

/-- C7, witness: the single-midpoint lane A yields progress 0. -/
theorem C7_witness :
    (idsToEl exStore.elements laneA = some elA ∧
      elA.lane.midpointsLen ≠ []) ∧
    ∃ r, get_lane_progress exStore (1, 1) laneA = .ok r ∧ 0 ≤ r ∧ r ≤ 1 ∧
      ∃ (i : Nat) (mp : Pt), elA.lane.midpointsLen[i]? = some mp ∧
        (linspace01 elA.lane.midpointsLen.length)[i]? = some r ∧
        ∀ (j : Nat) (mp2 : Pt), elA.lane.midpointsLen[j]? = some mp2 →
          sqDist mp (1, 1) ≤ sqDist mp2 (1, 1) :=
  ⟨⟨by rfl, by decide⟩, C7_theorem exStore (1, 1) laneA elA (by rfl) (by decide)⟩

/-- C8: whenever the nearest-lane query returns a sequence, it is exactly a
permutation of the coarse candidate ids (no lane is dropped after the
bounding-box filter), the candidates being the bounds-table ids at the
coarse candidate indices. -/
theorem C8_theorem (m : MapStore) (position : Pt)
    (cands : List (LaneId × Int)) (ids : List LaneId)
    (h : candPairs m position = .ok cands)
    (hres : get_closest_lanes_ids m position = .ok (some ids)) :
    ids.Perm (cands.map Prod.fst) ∧
    List.Forall₂ (fun i e => m.boundsIds[i]? = some (Prod.fst e))
      (candidateIdxs m position) cands := by
  refine ⟨?_, (lanesDistancesAux_spec m position h).1⟩
  by_cases hidx : candidateIdxs m position = []
  · have hgr : get_closest_lanes_ids m position = .ok none := by
      unfold get_closest_lanes_ids
      dsimp only
      rw [if_pos hidx]
    rw [hgr] at hres
    injection hres with hres
    exact absurd hres (by simp)
  · have hgr : get_closest_lanes_ids m position =
        .ok (some ((sortByKey (fun t => t.2.2) cands.enum).map
          (fun t => t.2.1))) := by
      unfold get_closest_lanes_ids
      dsimp only
      rw [if_neg hidx]
      simp only [h]
    rw [hgr] at hres
    injection hres with hres
    injection hres with hres
    subst hres
    have hperm := (sortByKey_perm (fun t : Nat × LaneId × Int => t.2.2)
      cands.enum).map (fun t : Nat × LaneId × Int => t.2.1)
    have henum : cands.enum.map (fun t : Nat × LaneId × Int => t.2.1) =
        cands.map Prod.fst := by
      have hcomp : (fun t : Nat × LaneId × Int => t.2.1) =
          (Prod.fst ∘ Prod.snd) := rfl
      rw [hcomp, ← List.map_map, List.enum_map_snd]
    rw [henum] at hperm
    exact hperm

/-- C8, witness at the one-lane store. -/
theorem C8_witness :
    (candPairs exStore (1, 1) = .ok [(laneA, 1)] ∧
      get_closest_lanes_ids exStore (1, 1) = .ok (some [laneA])) ∧
    (([laneA] : List LaneId).Perm
        (([(laneA, 1)] : List (LaneId × Int)).map Prod.fst) ∧
      List.Forall₂ (fun i e => exStore.boundsIds[i]? = some (Prod.fst e))
        (candidateIdxs exStore (1, 1)) ([(laneA, 1)] : List (LaneId × Int))) :=
  ⟨⟨by rfl, by rfl⟩,
    C8_theorem exStore (1, 1) [(laneA, 1)] [laneA] (by rfl) (by rfl)⟩

/-- C9: on a trajectory of exactly two samples the final position index -2
coincides with the initial sample, so the initial and final lane id
sequences are computed from the same position and are equal. -/
theorem C9_theorem (m : MapStore) (trajectory : List Pt)
    (h : trajectory.length = 2) :
    finalPositionOf trajectory = initialPositionOf trajectory ∧
    finalIdsOf m trajectory = initialIdsOf m trajectory := by
  obtain ⟨a, b, rfl⟩ := List.length_eq_two.1 h
  exact ⟨rfl, rfl⟩

/-- C9, witness on a concrete two-sample trajectory. -/
theorem C9_witness :
    (([(1, 2), (2, 2)] : List Pt).length = 2) ∧
    (finalPositionOf [(1, 2), (2, 2)] = initialPositionOf [(1, 2), (2, 2)] ∧
      finalIdsOf exStore [(1, 2), (2, 2)] =
        initialIdsOf exStore [(1, 2), (2, 2)]) :=
  ⟨by rfl, C9_theorem exStore [(1, 2), (2, 2)] (by rfl)⟩

/-- C10: within a single frame of get_route the set of visited lanes grows
by exactly the current ids computed from the unvisited dict before any
expansion; the current ids all come from the pre-frame unvisited dict, and a
lane id first inserted into unvisited during the frame is not visited in
that same frame. -/
theorem C10_theorem (m : MapStore) (init : List LaneId) (st st2 : Frontier)
    (position : Pt) (cur : List LaneId) (hwf : Wf init st)
    (h : frameStep m st position = .ok st2)
    (hcur : currentIdsAux m position st.unvisited = .ok cur) :
    keysOf st2.visited = keysOf st.visited ++ cur ∧
    (∀ a ∈ cur, a ∈ keysOf st.unvisited) ∧
    ∀ a, a ∉ keysOf st.unvisited → a ∈ keysOf st2.unvisited →
      a ∉ keysOf st2.visited := by
  obtain ⟨hwf2, cur2, hcur2, hkeys⟩ := frameStep_wf hwf h
  rw [hcur] at hcur2
  injection hcur2 with hcur2
  subst hcur2
  refine ⟨hkeys, currentIdsAux_sub hcur, ?_⟩
  intro a haU haU2 haV2
  rw [hkeys, List.mem_append] at haV2
  rcases haV2 with haV | hacur
  · refine hwf2.disj a ?_ haU2
    rw [hkeys, List.mem_append]
    exact Or.inl haV
  · exact haU (currentIdsAux_sub hcur a hacur)

/-- C10, witness: one frame at the seeded frontier of the one-lane store. -/
theorem C10_witness :
    (frameStep exStore ⟨[], seedUnvisited [laneA]⟩ (2, 2) =
        .ok ⟨[(laneA, none)], []⟩ ∧
      currentIdsAux exStore (2, 2) (seedUnvisited [laneA]) = .ok [laneA]) ∧
    (keysOf ([(laneA, none)] : List Entry) =
        keysOf ([] : List Entry) ++ [laneA] ∧
      (∀ a ∈ [laneA], a ∈ keysOf (seedUnvisited [laneA])) ∧
      ∀ a, a ∉ keysOf (seedUnvisited [laneA]) →
        a ∈ keysOf ([] : List Entry) →
        a ∉ keysOf ([(laneA, none)] : List Entry)) :=
  ⟨⟨by rfl, by rfl⟩,
    C10_theorem exStore [laneA] ⟨[], seedUnvisited [laneA]⟩
      ⟨[(laneA, none)], []⟩ (2, 2) [laneA] (Wf_seed [laneA])
      (by rfl) (by rfl)⟩

end CustomMapAPI
